import Mathlib

/-!
Verification of the mason recycling pipeline (`boskos/mason/mason.go`).

The pipeline stages (`recycleAll`, `fulfillAll`, `cleanAll`, `freeAll`) and
their per-item bodies (`recycleOne`, `fulfillOne`, `cleanOne`, `freeOne`) are
shallowly embedded as pure Lean functions.  Broker calls are modelled by an
oracle (`Client`) that prescribes the result of each call, and every call a
stage makes is recorded in an explicit effect trace, so that theorems can
speak both about returned values and about which broker operations were
performed.  Go maps are embedded as association lists; Go `int` is embedded
as `Int`; Go `error` values are opaque strings.

Types and helpers from the `boskos/common` package (resource records, the
user-data codec) are not part of this repository's source; they are modelled
from the spec where needed and marked as such.
-/

namespace Mason

/-- Errors are opaque strings, mirroring Go `error` values, which the mason
pipeline never inspects (except for the user-data not-found case, which is
modelled separately). -/
abbrev Err := String

/-- Modelled from the spec: the broker state tags `free`, `dirty`, `cleaning`
and `leased` (constants of the `boskos/common` package, which is outside this
repository's source; the spec's glossary names these four states). -/
def Free : String := "free"

def Dirty : String := "dirty"

def Cleaning : String := "cleaning"

def Leased : String := "leased"

/-- The well-known user-data key, constant `LeasedResources` in mason.go. -/
def LeasedResources : String := "leasedResources"

/-- User data is a flat string-to-string map (`common.UserData`), embedded as
an association list. -/
abbrev UserData := List (String × String)

/-- Lookup in an association list, mirroring a Go map read (`m[k]` with the
`ok` flag captured by the `Option`). -/
def alGet {α : Type} (k : String) : List (String × α) → Option α
  | [] => none
  | (k', v) :: rest => if k' = k then some v else alGet k rest

/-- A broker resource (`common.Resource`, modelled from the spec: a unique
name, a type tag, a state tag and a user-data map).  `userData = none` is
Go's nil map. -/
structure Resource where
  name : String
  rtype : String
  state : String
  userData : Option UserData
deriving Repr, DecidableEq

/-- `common.ResourceNeeds`: map from resource type to required count. -/
abbrev ResourceNeeds := List (String × Int)

/-- `common.TypeToResources`: map from resource type to the resources
currently filling that slot. -/
abbrev TypeToResources := List (String × List Resource)

/-- `requirements` from mason.go: an in-flight pipeline item. -/
structure requirements where
  resource : Resource
  needs : ResourceNeeds
  fulfillment : TypeToResources
deriving Repr, DecidableEq

/-- `requirements.isFulFilled` from mason.go: every needed type must be
present in the fulfillment with exactly the required count. -/
def requirements.isFulFilled (r : requirements) : Bool :=
  r.needs.all fun p =>
    match alGet p.1 r.fulfillment with
    | none => false
    | some resources => (resources.length : Int) == p.2

/-- A broker call made by the pipeline, as recorded in an effect trace. -/
inductive Effect
  | acquire (rtype fromState toState : String)
  | acquireByState (fromState toState : String) (names : List String)
  | releaseOne (name toState : String)
  | updateOne (name state : String) (userData : Option UserData)
deriving Repr, DecidableEq

/-- The boskos client oracle (interface `boskosClient` in mason.go): it
prescribes the result of every broker call the pipeline makes.  `releaseOne`
and `updateOne` return `none` on success; `acquireByState` returns the error
(if any) together with the resource list handed back. -/
structure Client where
  acquire : String → String → String → Except Err Resource
  acquireByState : String → String → List String → Option Err × List Resource
  releaseOne : String → String → Option Err
  updateOne : String → String → Option UserData → Option Err

/-- Modelled from the spec: the user-data codec of `boskos/common` (not part
of this repository's source).  `decodeLeased` decodes the string stored under
the `leasedResources` key into a list of names (`none` = decode error);
`encodeLeased` encodes such a list (`none` = encode error). -/
structure Codec where
  decodeLeased : String → Option (List String)
  encodeLeased : List String → Option String

/-- Modelled from the spec: the outcome of `UserData.Extract` for the
`leasedResources` key — a distinguishable not-found (key absent, also on a
nil map), a decode error, or the decoded name list. -/
inductive ExtractResult
  | notFound
  | decodeErr
  | ok (names : List String)
deriving Repr, DecidableEq

/-- Modelled from the spec: `UserData.Extract` specialised to the
`leasedResources` key.  A nil map or an absent key is not-found; otherwise
the stored string is decoded. -/
def extractLeased (codec : Codec) (userData : Option UserData) : ExtractResult :=
  match userData with
  | none => .notFound
  | some m =>
    match alGet LeasedResources m with
    | none => .notFound
    | some s =>
      match codec.decodeLeased s with
      | none => .decodeErr
      | some names => .ok names

/-- The distinct error outcomes of `freeOne`: the primary release failed, the
user-data map was nil, the leased-resources extraction failed, or one or more
secondary releases failed (their errors aggregated in order, as
`multierror.Append` does). -/
inductive FreeErr
  | primaryRelease (e : Err)
  | emptyUserData
  | extractFailed
  | secondaryReleases (es : List Err)
deriving Repr, DecidableEq

/-- `freeOne` from mason.go: release the primary to free; then extract the
leased names from its user data (a nil map is an error, as is any extraction
failure); then release each leased secondary to the state named after the
primary, aggregating all release errors.  Returns the effect trace and the
error outcome (`none` = success). -/
def freeOne (c : Client) (codec : Codec) (res : Resource) : List Effect × Option FreeErr :=
  match c.releaseOne res.name Free with
  | some e => ([.releaseOne res.name Free], some (.primaryRelease e))
  | none =>
    match res.userData with
    | none => ([.releaseOne res.name Free], some .emptyUserData)
    | some m =>
      match extractLeased codec (some m) with
      | .notFound => ([.releaseOne res.name Free], some .extractFailed)
      | .decodeErr => ([.releaseOne res.name Free], some .extractFailed)
      | .ok names =>
        let effects := names.map fun n => Effect.releaseOne n res.name
        let errs := names.filterMap fun n => c.releaseOne n res.name
        (Effect.releaseOne res.name Free :: effects,
          if errs.isEmpty then none else some (.secondaryReleases errs))

/-- One iteration of the `freeAll` loop body from mason.go, for a request
pulled from the cleaned queue: on any `freeOne` error the request is pushed
back onto cleaned (result `some req`), otherwise it leaves the pipeline
(result `none`). -/
def freeAllStep (c : Client) (codec : Codec) (req : requirements) :
    List Effect × Option requirements :=
  match freeOne c codec req.resource with
  | (tr, some _) => (tr, some req)
  | (tr, none) => (tr, none)

/-- `common.ResourcesConfig` (modelled from the spec): a named config bundle
with its needs vector and a constructor descriptor {type tag, content}.  The
config's name doubles as the primary resource type it governs. -/
structure ResourcesConfig where
  name : String
  needs : ResourceNeeds
  configType : String
  configContent : String

/-- The `Masonable` interface of mason.go: `Construct` takes the primary and
the leased secondaries and yields fresh user data or an error. -/
abbrev Masonable := Resource → TypeToResources → Except Err UserData

/-- The environment a Mason worker runs against: the client oracle, the
user-data codec, the config storage lookup (`storage.GetConfig`, implemented
outside mason.go and modelled from the spec as a lookup that may fail), and
the registered config converters (`configConverters` field of `Mason`). -/
structure MasonEnv where
  client : Client
  codec : Codec
  getConfig : String → Except Err ResourcesConfig
  configConverters : List (String × (String → Except Err Masonable))

/-- `convertConfig` from mason.go: look up the converter registered for the
descriptor's type tag and apply it to the descriptor's content. -/
def convertConfig (env : MasonEnv) (configEntry : ResourcesConfig) : Except Err Masonable :=
  match alGet configEntry.configType env.configConverters with
  | none => .error ("config type " ++ configEntry.name ++ " is not supported")
  | some fn => fn configEntry.configContent

/-- Modelled from the spec: `UserData.Set`-style single-key write used to
build `UserData.Update` (merge another map by key). -/
def udSet (k v : String) : UserData → UserData
  | [] => [(k, v)]
  | (k', v') :: rest => if k' = k then (k, v) :: rest else (k', v') :: udSet k v rest

/-- Modelled from the spec: `UserData.Update` merges the entries of `other`
into `m`, key by key. -/
def udUpdate (m other : UserData) : UserData :=
  other.foldl (fun acc p => udSet p.1 p.2 acc) m

/-- Modelled from the spec: Go's `delete` on the user-data map. -/
def udDelete (k : String) : UserData → UserData
  | [] => []
  | (k', v) :: rest => if k' = k then udDelete k rest else (k', v) :: udDelete k rest

/-- `cleanOne` from mason.go: look up the config for the primary's type,
build the constructor, run `Construct`, push the produced user data to the
broker with `UpdateOne`, and on success merge it into the in-memory primary.
Returns the effect trace and either the updated primary or the first error
encountered. -/
def cleanOne (env : MasonEnv) (res : Resource) (leasedResources : TypeToResources) :
    List Effect × Except Err Resource :=
  match env.getConfig res.rtype with
  | .error e => ([], .error e)
  | .ok configEntry =>
    match convertConfig env configEntry with
    | .error e => ([], .error e)
    | .ok config =>
      match config res leasedResources with
      | .error e => ([], .error e)
      | .ok userData =>
        match env.client.updateOne res.name res.state (some userData) with
        | some e => ([.updateOne res.name res.state (some userData)], .error e)
        | none =>
          let merged := match res.userData with
            | none => userData
            | some m => udUpdate m userData
          ([.updateOne res.name res.state (some userData)],
            .ok { res with userData := some merged })

/-- One iteration of the `cleanAll` loop body from mason.go, for a request
pulled from the fulfilled queue: on success push the request (with the
updated primary) onto cleaned; on any `cleanOne` error release the primary to
dirty and every secondary of the fulfillment (all types, all slots) to dirty,
and drop the request. -/
def cleanAllStep (env : MasonEnv) (req : requirements) : List Effect × Option requirements :=
  match cleanOne env req.resource req.fulfillment with
  | (tr, .ok res') => (tr, some { req with resource := res' })
  | (tr, .error _) =>
    let releases := Effect.releaseOne req.resource.name Dirty ::
      req.fulfillment.flatMap fun p => p.2.map fun r => Effect.releaseOne r.name Dirty
    (tr ++ releases, none)

/-- `recycleOne` from mason.go: look up the config for the primary's type,
extract any recorded lease names (key absence is non-fatal, a decode error is
fatal), and if names were recorded, re-acquire the still-parked secondaries
(`AcquireByState(primary.name, leased, names)`), release each returned one to
dirty, delete the `leasedResources` key from the in-memory user data and ask
the broker to clear it via `UpdateOne`.  Failures of `AcquireByState`, of the
releases and of the `UpdateOne` are only logged.  Returns the effect trace
and either the fresh request or the error. -/
def recycleOne (env : MasonEnv) (res : Resource) : List Effect × Except Err requirements :=
  match env.getConfig res.rtype with
  | .error e => ([], .error e)
  | .ok configEntry =>
    match extractLeased env.codec res.userData with
    | .decodeErr => ([], .error ("cannot parse " ++ LeasedResources ++ " from User Data"))
    | .notFound =>
      ([], .ok { fulfillment := [], needs := configEntry.needs, resource := res })
    | .ok leasedResources =>
      let returned := (env.client.acquireByState res.name Leased leasedResources).2
      let res' := { res with userData := res.userData.map (udDelete LeasedResources) }
      (Effect.acquireByState res.name Leased leasedResources ::
        (returned.map fun r => Effect.releaseOne r.name Dirty) ++
        [Effect.updateOne res.name res.state (some [(LeasedResources, "")])],
        .ok { fulfillment := [], needs := configEntry.needs, resource := res' })

/-- The per-acquired-primary part of the `recycleAll` loop body from
mason.go: on a `recycleOne` error release the primary back to dirty and
enqueue nothing; on success push the fresh request onto pending. -/
def recycleHandle (env : MasonEnv) (res : Resource) : List Effect × Option requirements :=
  match recycleOne env res with
  | (tr, .ok req) => (tr, some req)
  | (tr, .error _) => (tr ++ [.releaseOne res.name Dirty], none)

/-- One timer-triggered iteration of the `recycleAll` loop from mason.go:
collect the names of the snapshotted configs, and for each one attempt
`Acquire(name, dirty, cleaning)`; on failure skip the config, on success run
`recycleOne` and handle its outcome.  Returns the effect trace and the
requests pushed onto pending, in order. -/
def recycleAllIter (env : MasonEnv) (configs : List ResourcesConfig) :
    List Effect × List requirements :=
  let configTypes := configs.map (·.name)
  configTypes.foldl
    (fun acc r =>
      match env.client.acquire r Dirty Cleaning with
      | .error _ => (acc.1 ++ [Effect.acquire r Dirty Cleaning], acc.2)
      | .ok res =>
        let (tr, pushed) := recycleHandle env res
        (acc.1 ++ [Effect.acquire r Dirty Cleaning] ++ tr, acc.2 ++ pushed.toList))
    ([], [])

/-- Follows the spec's words (§4.4 steps 2–3): what one config contributes to
a Recycler iteration — one `Acquire(primaryType, dirty, cleaning)` attempt;
a failed acquire is skipped with no further action, a successful one is
recycled and its outcome handled. -/
def recycleSpecConfigBlock (env : MasonEnv) (c : ResourcesConfig) :
    List Effect × List requirements :=
  match env.client.acquire c.name Dirty Cleaning with
  | .error _ => ([Effect.acquire c.name Dirty Cleaning], [])
  | .ok res =>
    let (tr, pushed) := recycleHandle env res
    (Effect.acquire c.name Dirty Cleaning :: tr, pushed.toList)

instance exceptDecEq {ε α : Type} [DecidableEq ε] [DecidableEq α] :
    DecidableEq (Except ε α) := fun x y =>
  match x, y with
  | .ok a, .ok b => if h : a = b then isTrue (by rw [h]) else isFalse (by simp [h])
  | .error a, .error b => if h : a = b then isTrue (by rw [h]) else isFalse (by simp [h])
  | .ok _, .error _ => isFalse (by simp)
  | .error _, .ok _ => isFalse (by simp)

/-- One scheduling event of the acquisition wait loop in `fulfillOne`: the
select either observes cancellation, or the timer fires and the worker
heartbeats and attempts one acquire whose broker answer is the event's
payload. -/
inductive FEvent
  | cancel
  | tick (acq : Except Err Resource)
deriving Repr, DecidableEq

/-- `updateResources` from mason.go: heartbeat the primary and every leased
secondary with a nil-user-data `UpdateOne`. -/
def updateResourcesEffects (req : requirements) : List Effect :=
  (req.resource :: req.fulfillment.flatMap (·.2)).map fun r => Effect.updateOne r.name r.state none

/-- `req.fulfillment[rType] = append(req.fulfillment[rType], res)`: append a
resource to the slot of a type, creating the slot if absent. -/
def alAppend (t : String) (r : Resource) : TypeToResources → TypeToResources
  | [] => [(t, [r])]
  | (k, rs) :: rest => if k = t then (k, rs ++ [r]) :: rest else (k, rs) :: alAppend t r rest

/-- Outcome of the acquisition loop of `fulfillOne`: cancelled
mid-fulfillment, finished (all copied counts reached zero), or starved (the
event budget ran out while the Go loop would still be waiting). -/
inductive LoopOutcome
  | cancelled (req : requirements)
  | finished (req : requirements)
  | starved (req : requirements)
deriving Repr, DecidableEq

/-- The acquisition loop of `fulfillOne` from mason.go, driven by a finite
event schedule: for each type of the copied needs vector, while its count is
positive, an event either cancels the stage, or ticks — heartbeat every held
resource, attempt `Acquire(type, free, leased)`, and on success append the
resource to the fulfillment and decrement the copied count. -/
def fulfillLoop : requirements → ResourceNeeds → List FEvent → List Effect × LoopOutcome
  | req, [], _ => ([], .finished req)
  | req, (t, c) :: rest, events =>
    if 0 < c then
      match events with
      | [] => ([], .starved req)
      | .cancel :: _ => ([], .cancelled req)
      | .tick acq :: evs =>
        let hb := updateResourcesEffects req ++ [Effect.acquire t Free Leased]
        match acq with
        | .error _ =>
          let (tr, out) := fulfillLoop req ((t, c) :: rest) evs
          (hb ++ tr, out)
        | .ok r =>
          let req' := { req with fulfillment := alAppend t r req.fulfillment }
          let (tr, out) := fulfillLoop req' ((t, c - 1) :: rest) evs
          (hb ++ tr, out)
    else
      fulfillLoop req rest events
termination_by _ needs events => (events.length, needs.length)

/-- The result of `fulfillOne`: either the function returned (`ret`, with the
request as mutated through its pointer, and the returned error), or the event
budget was exhausted mid-wait (`starved`: in Go the loop is still blocked). -/
inductive FulfillResult
  | ret (req : requirements) (e : Option Err)
  | starved (req : requirements)
deriving Repr, DecidableEq

/-- `fulfillOne` from mason.go: run the acquisition loop on a copy of the
needs vector; on cancellation return the context error.  When the loop
finishes and the request is fulfilled, encode the flattened lease names,
persist them with `UpdateOne` (an encode or update failure is returned as an
error), merge them into the in-memory primary and return success; if the
request is not fulfilled at that point, return success with no further
effect. -/
def fulfillOne (env : MasonEnv) (req : requirements) (events : List FEvent) :
    List Effect × FulfillResult :=
  match fulfillLoop req req.needs events with
  | (tr, .cancelled req') => (tr, .ret req' (some "context canceled"))
  | (tr, .starved req') => (tr, .starved req')
  | (tr, .finished req') =>
    if req'.isFulFilled then
      let leasedNames := (req'.fulfillment.flatMap (·.2)).map (·.name)
      match env.codec.encodeLeased leasedNames with
      | none => (tr, .ret req' (some ("failed to add " ++ LeasedResources ++ " user data")))
      | some s =>
        let userData : UserData := [(LeasedResources, s)]
        match env.client.updateOne req'.resource.name req'.resource.state (some userData) with
        | some e =>
          (tr ++ [.updateOne req'.resource.name req'.resource.state (some userData)],
            .ret req' (some e))
        | none =>
          let merged := match req'.resource.userData with
            | none => userData
            | some m => udUpdate m userData
          (tr ++ [.updateOne req'.resource.name req'.resource.state (some userData)],
            .ret { req' with resource := { req'.resource with userData := some merged } } none)
    else (tr, .ret req' none)

/-- One iteration of the `fulfillAll` loop body from mason.go, for a request
pulled from the pending queue: on a `fulfillOne` error release every resource
of the (mutated) fulfillment back to free and drop the request; on success
push it onto fulfilled. -/
def fulfillAllStep (env : MasonEnv) (req : requirements) (events : List FEvent) :
    List Effect × Option requirements :=
  match fulfillOne env req events with
  | (tr, .starved _) => (tr, none)
  | (tr, .ret req' (some _)) =>
    (tr ++ (req'.fulfillment.flatMap (·.2)).map fun r => Effect.releaseOne r.name Free, none)
  | (tr, .ret req' none) => (tr, some req')

/-- `m[k] += v` on a Go int-valued map embedded as an association list:
update in place, inserting at the end when the key is absent. -/
def alAdd (k : String) (v : Int) : List (String × Int) → List (String × Int)
  | [] => [(k, v)]
  | (k', v') :: rest => if k' = k then (k', v' + v) :: rest else (k', v') :: alAdd k v rest

/-- The first loop of `ValidateConfig` from mason.go: build the `configNames`
map from name to needs, failing on a duplicate config name. -/
def buildConfigNames : List ResourcesConfig → List (String × ResourceNeeds) →
    Except Err (List (String × ResourceNeeds))
  | [], acc => .ok acc
  | c :: rest, acc =>
    match alGet c.name acc with
    | some _ => .error ("config " ++ c.name ++ " already exists")
    | none => buildConfigNames rest (acc ++ [(c.name, c.needs)])

/-- The second loop of `ValidateConfig` from mason.go: for every census
resource whose type has a config, add that config's needs into
`resourcesNeeds`; count every census resource in `actualResources`. -/
def tallyResources (configNames : List (String × ResourceNeeds)) :
    List Resource → List (String × Int) → List (String × Int) →
    List (String × Int) × List (String × Int)
  | [], needsAcc, actualAcc => (needsAcc, actualAcc)
  | res :: rest, needsAcc, actualAcc =>
    let needsAcc' := match alGet res.rtype configNames with
      | some c => c.foldl (fun acc p => alAdd p.1 p.2 acc) needsAcc
      | none => needsAcc
    tallyResources configNames rest needsAcc' (alAdd res.rtype 1 actualAcc)

/-- The third loop of `ValidateConfig` from mason.go: every accumulated need
must name a type present in the census, with enough actual resources. -/
def checkNeeds (actual : List (String × Int)) : List (String × Int) → Option Err
  | [] => none
  | (rType, needs) :: rest =>
    match alGet rType actual with
    | none => some ("need for resource " ++ rType ++ " that does not exist")
    | some act =>
      if act < needs then some ("not enough resource of type " ++ rType ++ " for provisioning")
      else checkNeeds actual rest

/-- `ValidateConfig` from mason.go, returning `none` on success.  The
embedding is a pure function of its arguments: it produces only the verdict
and leaves configs and census untouched, so validation mutates nothing. -/
def ValidateConfig (configs : List ResourcesConfig) (resources : List Resource) : Option Err :=
  match buildConfigNames configs [] with
  | .error e => some e
  | .ok configNames =>
    let tallied := tallyResources configNames resources [] []
    checkNeeds tallied.2 tallied.1

/-- Follows the spec's words: how many census resources have type `k`. -/
def censusCount (resources : List Resource) (k : String) : Int :=
  (resources.map fun res => if res.rtype = k then (1 : Int) else 0).sum

/-- Sum of the values recorded at key `k` among the entries of a needs
list. -/
def entrySum (k : String) (needs : ResourceNeeds) : Int :=
  (needs.map fun p => if p.1 = k then p.2 else 0).sum

/-- Follows the spec's words: the needs of the config governing primaries of
type `t` (empty when no config has `t` as its name). -/
def configNeedsFor (configs : List ResourcesConfig) (t : String) : ResourceNeeds :=
  match configs.find? (fun c => c.name == t) with
  | some c => c.needs
  | none => []

/-- The accumulation `ValidateConfig` actually performs (the
`resourcesNeeds` map of mason.go): a config's needs at `k` are added once
per census resource of that config's primary type, so a primary type with
several census resources contributes its needs several times. -/
def accumNeeds (configs : List ResourcesConfig) (resources : List Resource) (k : String) : Int :=
  (resources.map fun res => entrySum k (configNeedsFor configs res.rtype)).sum

/-- Follows the spec's words: the needs at `k` summed once per config whose
primary type appears in the census ("the sum over all configs whose primary
type appears"), regardless of how many census resources share that primary
type. -/
def specOncePerConfigNeeds (configs : List ResourcesConfig) (resources : List Resource)
    (k : String) : Int :=
  (configs.map fun c =>
    if resources.any fun res => res.rtype == c.name then entrySum k c.needs else 0).sum

/-- Follows the spec's words: `k` is referenced by the needs of some config
whose primary type appears in the census. -/
def isReferenced (configs : List ResourcesConfig) (resources : List Resource) (k : String) : Prop :=
  ∃ res ∈ resources, ∃ c ∈ configs, c.name = res.rtype ∧ k ∈ c.needs.map Prod.fst

/-- Concrete broker for the Releaser examples: every call succeeds except
releasing "b1", which fails with "boom". -/
def fxFreeClient : Client where
  acquire := fun _ _ _ => .error "resources not found"
  acquireByState := fun _ _ _ => (none, [])
  releaseOne := fun n _ => if n = "b1" then some "boom" else none
  updateOne := fun _ _ _ => none

/-- Concrete codec whose stored lease list always decodes to ["b1"]. -/
def fxFreeCodec : Codec where
  decodeLeased := fun _ => some ["b1"]
  encodeLeased := fun _ => some "[]"

/-- A cleaned primary whose user data records a lease under the
`leasedResources` key. -/
def fxFreeRes : Resource :=
  { name := "a", rtype := "A", state := Cleaning, userData := some [(LeasedResources, "x")] }

def fxFreeReq : requirements := { resource := fxFreeRes, needs := [], fulfillment := [] }

/-- Concrete broker where every call succeeds (acquire finds nothing). -/
def fxOkClient : Client where
  acquire := fun _ _ _ => .error "resources not found"
  acquireByState := fun _ _ _ => (none, [])
  releaseOne := fun _ _ => none
  updateOne := fun _ _ _ => none

/-- A primary with a nil user-data map. -/
def fxNilRes : Resource := { name := "a", rtype := "A", state := Cleaning, userData := none }

def fxNilReq : requirements := { resource := fxNilRes, needs := [], fulfillment := [] }

/-- A leased secondary. -/
def fxB1 : Resource := { name := "b1", rtype := "B", state := Leased, userData := none }

/-- A free secondary. -/
def fxB2 : Resource := { name := "b2", rtype := "B", state := Free, userData := none }

/-- Environment whose config lookup always fails. -/
def fxBadConfigEnv : MasonEnv where
  client := fxOkClient
  codec := fxFreeCodec
  getConfig := fun t => .error ("no config for " ++ t)
  configConverters := []

/-- A fulfilled request holding one leased secondary. -/
def fxCleanReq : requirements :=
  { resource := fxNilRes, needs := [("B", 1)], fulfillment := [("B", [fxB1])] }

def fxCfgA : ResourcesConfig :=
  { name := "A", needs := [("B", 2)], configType := "t", configContent := "" }

/-- Environment with a config registered for primaries of type "A". -/
def fxRecycleEnv : MasonEnv where
  client := fxOkClient
  codec := fxFreeCodec
  getConfig := fun t => if t = "A" then .ok fxCfgA else .error "no config"
  configConverters := []

/-- A pending request needing one resource of type "B". -/
def fxPendingReq : requirements :=
  { resource := fxNilRes, needs := [("B", 1)], fulfillment := [] }

/-- A pending request needing one "B" whose fulfillment already holds one:
after one successful acquisition the slot holds two, so the request can
finish the loop unfulfilled. -/
def fxStaleReq : requirements :=
  { resource := fxNilRes, needs := [("B", 1)], fulfillment := [("B", [fxB1])] }

/-- Two dirty primaries of type "A" for the validation census. -/
def fxA1 : Resource := { name := "a1", rtype := "A", state := Dirty, userData := none }

def fxA2 : Resource := { name := "a2", rtype := "A", state := Dirty, userData := none }

/-- A census with two "A" primaries and two "B" secondaries. -/
def fxCensus : List Resource := [fxA1, fxA2, fxB1, fxB2]

/-- C4: `isFulFilled(r)` is true iff for every type `t` in `r.needs`,
`r.fulfillment[t]` exists and has exactly `r.needs[t]` elements; and the
result depends only on the fulfillment's entries at the types appearing in
`r.needs`, so types present only in the fulfillment cannot affect it. -/
theorem isFulFilled_iff (r : requirements) :
    (r.isFulFilled = true ↔
      ∀ p ∈ r.needs, ∃ l, alGet p.1 r.fulfillment = some l ∧ (l.length : Int) = p.2)
    ∧ (∀ f' : TypeToResources,
        (∀ t ∈ r.needs.map Prod.fst, alGet t f' = alGet t r.fulfillment) →
        requirements.isFulFilled ⟨r.resource, r.needs, f'⟩ = r.isFulFilled) := by
  constructor
  · rw [requirements.isFulFilled, List.all_eq_true]
    constructor
    · intro h p hp
      have := h p hp
      cases hget : alGet p.1 r.fulfillment with
      | none => rw [hget] at this; simp at this
      | some l =>
        rw [hget] at this
        simp only [beq_iff_eq] at this
        exact ⟨l, rfl, by exact_mod_cast this⟩
    · intro h p hp
      obtain ⟨l, hl, hlen⟩ := h p hp
      rw [hl]
      simpa using hlen
  · intro f'
    simp only [requirements.isFulFilled]
    induction r.needs with
    | nil => intro _; rfl
    | cons p rest ih =>
      intro hagree
      simp only [List.all_cons]
      rw [hagree p.1 (by simp), ih (fun t ht => hagree t (by simp [ht]))]

/-- C1 counterexample: with the concrete broker `fxFreeClient`, releasing
the primary "a" to free succeeds and releasing the leased secondary "b1" to
state "a" fails; `freeOne` returns the aggregated secondary error, yet the
Releaser re-enqueues the request onto cleaned — the claim's "the request is
not re-enqueued" part is false on the code, which re-enqueues on every
`freeOne` error. -/
theorem freeAll_secondary_failure_reenqueued :
    fxFreeClient.releaseOne fxFreeRes.name Free = none ∧
    freeOne fxFreeClient fxFreeCodec fxFreeRes =
      ([.releaseOne "a" Free, .releaseOne "b1" "a"],
        some (.secondaryReleases ["boom"])) ∧
    (freeAllStep fxFreeClient fxFreeCodec fxFreeReq).2 = some fxFreeReq :=
  ⟨rfl, rfl, rfl⟩

/-- C1 (amended): the Releaser re-enqueues a request onto cleaned exactly
when `freeOne` fails; in particular, when releasing the primary to free
succeeded but releasing one or more leased secondaries failed, the secondary
errors are aggregated and returned and the request IS re-enqueued onto
cleaned (not dropped). -/
theorem freeAllStep_retry_policy (c : Client) (codec : Codec) (req : requirements) :
    ((freeAllStep c codec req).2 = some req ↔ (freeOne c codec req.resource).2 ≠ none) ∧
    ((freeOne c codec req.resource).2 = none → (freeAllStep c codec req).2 = none) ∧
    (∀ names, c.releaseOne req.resource.name Free = none →
      extractLeased codec req.resource.userData = .ok names →
      (names.filterMap fun n => c.releaseOne n req.resource.name) ≠ [] →
      (freeOne c codec req.resource).2 =
        some (.secondaryReleases (names.filterMap fun n => c.releaseOne n req.resource.name)) ∧
      (freeAllStep c codec req).2 = some req) := by
  have hsplit : freeAllStep c codec req = ((freeOne c codec req.resource).1,
      if (freeOne c codec req.resource).2 = none then none else some req) := by
    unfold freeAllStep
    rcases freeOne c codec req.resource with ⟨tr, _ | e⟩ <;> simp
  refine ⟨?_, ?_, ?_⟩
  · rw [hsplit]
    rcases (freeOne c codec req.resource).2 with _ | e <;> simp
  · intro h
    rw [hsplit, h]
    simp
  · intro names hrel hext hne
    have hud : ∃ m, req.resource.userData = some m := by
      cases h : req.resource.userData with
      | none => rw [h] at hext; simp [extractLeased] at hext
      | some m => exact ⟨m, rfl⟩
    obtain ⟨m, hm⟩ := hud
    rw [hm] at hext
    have hone : (freeOne c codec req.resource).2 =
        some (.secondaryReleases (names.filterMap fun n => c.releaseOne n req.resource.name)) := by
      unfold freeOne
      rw [hrel, hm]
      simp only [hext]
      rcases hcase : names.filterMap fun n => c.releaseOne n req.resource.name with _ | ⟨e0, es⟩
      · exact absurd hcase hne
      · simp [hcase]
    refine ⟨hone, ?_⟩
    rw [hsplit, hone]
    simp

/-- C1 witness for `freeAllStep_retry_policy`: at the concrete broker
`fxFreeClient` the primary release succeeds, the extraction yields ["b1"],
the release of "b1" fails, and the theorem yields the aggregated error
together with the re-enqueue. -/
theorem freeAllStep_retry_policy_witness :
    (freeOne fxFreeClient fxFreeCodec fxFreeRes).2 =
      some (.secondaryReleases ["boom"]) ∧
    (freeAllStep fxFreeClient fxFreeCodec fxFreeReq).2 = some fxFreeReq := by
  have h := (freeAllStep_retry_policy fxFreeClient fxFreeCodec fxFreeReq).2.2
    ["b1"] rfl rfl (by decide)
  exact ⟨h.1, h.2⟩

/-- C10: when the primary's user-data map is nil and the broker accepts the
primary release, `freeOne` first releases the primary to free — the only
broker call it makes — and only then fails with the empty-user-data error,
never attempting the lease extraction; `freeAll` therefore re-enqueues the
request onto cleaned although its primary has already been freed. -/
theorem freeOne_nil_userdata (c : Client) (codec : Codec) (req : requirements)
    (hud : req.resource.userData = none)
    (hrel : c.releaseOne req.resource.name Free = none) :
    freeOne c codec req.resource =
      ([.releaseOne req.resource.name Free], some .emptyUserData) ∧
    (freeAllStep c codec req).2 = some req := by
  have hone : freeOne c codec req.resource =
      ([.releaseOne req.resource.name Free], some .emptyUserData) := by
    unfold freeOne
    rw [hrel, hud]
  refine ⟨hone, ?_⟩
  unfold freeAllStep
  rw [hone]

/-- C10 witness for `freeOne_nil_userdata`, at a primary with nil user data
and an always-accepting broker. -/
theorem freeOne_nil_userdata_witness :
    freeOne fxOkClient fxFreeCodec fxNilRes =
      ([.releaseOne "a" Free], some .emptyUserData) ∧
    (freeAllStep fxOkClient fxFreeCodec fxNilReq).2 = some fxNilReq := by
  have h := freeOne_nil_userdata fxOkClient fxFreeCodec fxNilReq rfl rfl
  exact ⟨h.1, h.2⟩

/-- C2: cleaning a request fails exactly when the config lookup, the
converter build, `Construct`, or the broker `UpdateOne` fails; and whenever
it fails, the Cleaner drops the request (nothing is pushed onto cleaned),
releases the primary to dirty, and releases every secondary recorded in the
request's fulfillment — all types, all slots — to dirty. -/
theorem cleanAll_failure_unwind (env : MasonEnv) (req : requirements) :
    ((∃ e, (cleanOne env req.resource req.fulfillment).2 = .error e) ↔
      ((∃ e, env.getConfig req.resource.rtype = .error e) ∨
        ∃ ce, env.getConfig req.resource.rtype = .ok ce ∧
          ((∃ e, convertConfig env ce = .error e) ∨
            ∃ cfg, convertConfig env ce = .ok cfg ∧
              ((∃ e, cfg req.resource req.fulfillment = .error e) ∨
                ∃ ud, cfg req.resource req.fulfillment = .ok ud ∧
                  ∃ e, env.client.updateOne req.resource.name req.resource.state (some ud) =
                    some e)))) ∧
    (∀ e, (cleanOne env req.resource req.fulfillment).2 = .error e →
      (cleanAllStep env req).2 = none ∧
      Effect.releaseOne req.resource.name Dirty ∈ (cleanAllStep env req).1 ∧
      ∀ p ∈ req.fulfillment, ∀ r ∈ p.2,
        Effect.releaseOne r.name Dirty ∈ (cleanAllStep env req).1) := by
  constructor
  · unfold cleanOne
    rcases hg : env.getConfig req.resource.rtype with e | ce <;> simp only [hg]
    · simp
    · rcases hc : convertConfig env ce with e | cfg <;> simp only [hc]
      · simp only [Except.error.injEq, exists_eq']
        simp
        exact Or.inl ⟨e, hc⟩
      · rcases hk : cfg req.resource req.fulfillment with e | ud <;> simp only [hk]
        · simp
          exact Or.inr ⟨cfg, hc, Or.inl ⟨e, hk⟩⟩
        · rcases hu : env.client.updateOne req.resource.name req.resource.state (some ud)
            with _ | e <;> simp only [hu] <;> simp
          · constructor
            · intro x hx
              rw [hc] at hx
              cases hx
            · intro x hx
              rw [hc] at hx
              injection hx with hx'
              subst hx'
              constructor
              · intro y hy
                rw [hk] at hy
                cases hy
              · intro y hy
                rw [hk] at hy
                injection hy with hy'
                subst hy'
                intro z hz
                rw [hu] at hz
                cases hz
          · exact Or.inr ⟨cfg, hc, Or.inr ⟨ud, hk, e, hu⟩⟩
  · intro e he
    have hstep : (cleanAllStep env req).2 = none ∧
        (cleanAllStep env req).1 = (cleanOne env req.resource req.fulfillment).1 ++
          (Effect.releaseOne req.resource.name Dirty ::
            req.fulfillment.flatMap fun p => p.2.map fun r =>
              Effect.releaseOne r.name Dirty) := by
      unfold cleanAllStep
      rcases hco : cleanOne env req.resource req.fulfillment with ⟨tr, r⟩
      rw [hco] at he
      simp only at he
      rw [he]
      exact ⟨rfl, rfl⟩
    refine ⟨hstep.1, ?_, ?_⟩
    · rw [hstep.2]
      simp
    · intro p hp r hr
      rw [hstep.2]
      simp only [List.mem_append, List.mem_cons, List.mem_flatMap, List.mem_map]
      exact Or.inr (Or.inr ⟨p, hp, r, hr, rfl⟩)

/-- C2 witness for `cleanAll_failure_unwind`: with a failing config lookup,
the request holding secondary "b1" is dropped and both "a" and "b1" are
released to dirty. -/
theorem cleanAll_failure_unwind_witness :
    (cleanAllStep fxBadConfigEnv fxCleanReq).2 = none ∧
    Effect.releaseOne "a" Dirty ∈ (cleanAllStep fxBadConfigEnv fxCleanReq).1 ∧
    Effect.releaseOne "b1" Dirty ∈ (cleanAllStep fxBadConfigEnv fxCleanReq).1 := by
  have h := (cleanAll_failure_unwind fxBadConfigEnv fxCleanReq).2 "no config for A" rfl
  exact ⟨h.1, h.2.1, h.2.2 ("B", [fxB1]) (by decide) fxB1 (by decide)⟩

/-- C3: with the primary's config resolving, if the user data lacks the
`leasedResources` key, lease reclaim is skipped entirely (no broker call is
made and the fresh request carries the primary unchanged); if the key is
present and decodes to `names`, `recycleOne` calls
`AcquireByState(fromState = primary.name, toState = leased, names)`,
releases each returned secondary to dirty, deletes the key from the
in-memory user data, and calls `UpdateOne` on the primary to clear it
broker-side. -/
theorem recycleOne_lease_reclaim (env : MasonEnv) (res : Resource)
    (configEntry : ResourcesConfig)
    (hconf : env.getConfig res.rtype = .ok configEntry) :
    (extractLeased env.codec res.userData = .notFound →
      recycleOne env res =
        ([], .ok { fulfillment := [], needs := configEntry.needs, resource := res })) ∧
    (∀ names, extractLeased env.codec res.userData = .ok names →
      recycleOne env res =
        (Effect.acquireByState res.name Leased names ::
          ((env.client.acquireByState res.name Leased names).2.map fun r =>
            Effect.releaseOne r.name Dirty) ++
          [Effect.updateOne res.name res.state (some [(LeasedResources, "")])],
         .ok { fulfillment := [], needs := configEntry.needs,
               resource :=
                 { res with userData := res.userData.map (udDelete LeasedResources) } })) := by
  constructor
  · intro hext
    unfold recycleOne
    rw [hconf]
    simp only [hext]
  · intro names hext
    unfold recycleOne
    rw [hconf]
    simp only [hext]

/-- C3 witness for `recycleOne_lease_reclaim`: a primary without the key is
passed through untouched; a primary recording lease "b1" triggers the
acquire-by-state, the broker-side clear, and the in-memory key deletion. -/
theorem recycleOne_lease_reclaim_witness :
    recycleOne fxRecycleEnv fxNilRes =
      ([], .ok { fulfillment := [], needs := [("B", 2)], resource := fxNilRes }) ∧
    recycleOne fxRecycleEnv fxFreeRes =
      ([.acquireByState "a" Leased ["b1"],
        .updateOne "a" Cleaning (some [(LeasedResources, "")])],
       .ok { fulfillment := [], needs := [("B", 2)],
             resource := { fxFreeRes with userData := some [] } }) := by
  constructor
  · exact (recycleOne_lease_reclaim fxRecycleEnv fxNilRes fxCfgA rfl).1 rfl
  · exact (recycleOne_lease_reclaim fxRecycleEnv fxFreeRes fxCfgA rfl).2 ["b1"] rfl

/-- C6: `recycleOne` fails exactly when the config lookup fails or the
`leasedResources` user data fails to decode (absence of the key is
non-fatal); on failure the Recycler releases the primary back to dirty and
enqueues nothing, on success the fresh request is pushed onto pending; and
the outcome is independent of the broker client, so failures of
`AcquireByState`, of the secondary releases, or of the clearing `UpdateOne`
(all only logged) cannot prevent the request from being created and
pushed. -/
theorem recycleOne_error_policy (env : MasonEnv) (res : Resource) :
    ((∃ e, (recycleOne env res).2 = .error e) ↔
      ((∃ e, env.getConfig res.rtype = .error e) ∨
        extractLeased env.codec res.userData = .decodeErr)) ∧
    (∀ e, (recycleOne env res).2 = .error e →
      recycleHandle env res =
        ((recycleOne env res).1 ++ [.releaseOne res.name Dirty], none)) ∧
    (∀ req', (recycleOne env res).2 = .ok req' →
      recycleHandle env res = ((recycleOne env res).1, some req')) ∧
    (∀ c' : Client,
      (recycleOne { env with client := c' } res).2 = (recycleOne env res).2) := by
  refine ⟨?_, ?_, ?_, ?_⟩
  · unfold recycleOne
    rcases hg : env.getConfig res.rtype with e | ce <;> simp only [hg]
    · simp
    · rcases hx : extractLeased env.codec res.userData with _ | _ | names <;>
        simp only [hx] <;> simp
  · intro e he
    unfold recycleHandle
    rcases hro : recycleOne env res with ⟨tr, r⟩
    rw [hro] at he
    simp only at he
    rw [he]
  · intro req' hok
    unfold recycleHandle
    rcases hro : recycleOne env res with ⟨tr, r⟩
    rw [hro] at hok
    simp only at hok
    rw [hok]
  · intro c'
    unfold recycleOne
    rcases hg : env.getConfig res.rtype with e | ce <;> simp only [hg]
    rcases hx : extractLeased env.codec res.userData with _ | _ | names <;>
      simp only [hx]

/-- C6 witness for `recycleOne_error_policy`: with a failing config lookup
the iteration releases the primary back to dirty and enqueues nothing. -/
theorem recycleOne_error_policy_witness :
    recycleHandle fxBadConfigEnv fxNilRes = ([.releaseOne "a" Dirty], none) := by
  have h := (recycleOne_error_policy fxBadConfigEnv fxNilRes).2.1 "no config for A" rfl
  exact h

/-- Accumulator decomposition of the Recycler's per-iteration fold: starting
from accumulator `acc`, processing the snapshotted configs appends the
per-config contributions in order. -/
theorem recycleAll_foldl_decomp (env : MasonEnv) (configs : List ResourcesConfig)
    (acc : List Effect × List requirements) :
    (configs.map (·.name)).foldl
      (fun acc r =>
        match env.client.acquire r Dirty Cleaning with
        | .error _ => (acc.1 ++ [Effect.acquire r Dirty Cleaning], acc.2)
        | .ok res =>
          let (tr, pushed) := recycleHandle env res
          (acc.1 ++ [Effect.acquire r Dirty Cleaning] ++ tr, acc.2 ++ pushed.toList)) acc =
    (acc.1 ++ ((configs.map (recycleSpecConfigBlock env)).foldr
        (fun b r => (b.1 ++ r.1, b.2 ++ r.2)) ([], [])).1,
     acc.2 ++ ((configs.map (recycleSpecConfigBlock env)).foldr
        (fun b r => (b.1 ++ r.1, b.2 ++ r.2)) ([], [])).2) := by
  induction configs generalizing acc with
  | nil => simp
  | cons c rest ih =>
    simp only [List.map_cons, List.foldl_cons, List.foldr_cons]
    rw [ih]
    unfold recycleSpecConfigBlock
    rcases hacq : env.client.acquire c.name Dirty Cleaning with e | res
    · simp [hacq, List.append_assoc]
    · rcases hh : recycleHandle env res with ⟨tr, pushed⟩
      simp [hacq, hh, List.append_assoc]

/-- C7: one Recycler iteration decomposes into per-config blocks, in order:
each config contributes exactly one `Acquire(config.name, dirty, cleaning)`
attempt — the config's name being its primary resource type — with a failed
acquire contributing nothing beyond the attempt (the config is skipped); in
particular the trace contains such an acquire for every snapshotted
config. -/
theorem recycleAllIter_per_config (env : MasonEnv) (configs : List ResourcesConfig) :
    recycleAllIter env configs =
      (configs.map (recycleSpecConfigBlock env)).foldr
        (fun b r => (b.1 ++ r.1, b.2 ++ r.2)) ([], []) ∧
    ∀ c ∈ configs, Effect.acquire c.name Dirty Cleaning ∈ (recycleAllIter env configs).1 := by
  have hmain : recycleAllIter env configs =
      (configs.map (recycleSpecConfigBlock env)).foldr
        (fun b r => (b.1 ++ r.1, b.2 ++ r.2)) ([], []) := by
    unfold recycleAllIter
    rw [recycleAll_foldl_decomp env configs ([], [])]
    simp
  have hblock : ∀ c : ResourcesConfig,
      Effect.acquire c.name Dirty Cleaning ∈ (recycleSpecConfigBlock env c).1 := by
    intro c
    unfold recycleSpecConfigBlock
    rcases hacq : env.client.acquire c.name Dirty Cleaning with e | res
    · simp [hacq]
    · rcases hh : recycleHandle env res with ⟨tr, pushed⟩
      simp [hacq, hh]
  have hmem : ∀ cs : List ResourcesConfig, ∀ c ∈ cs,
      Effect.acquire c.name Dirty Cleaning ∈
        ((cs.map (recycleSpecConfigBlock env)).foldr
          (fun b r => (b.1 ++ r.1, b.2 ++ r.2)) ([], [])).1 := by
    intro cs
    induction cs with
    | nil => intro c hc; cases hc
    | cons c' rest ih =>
      intro c hc
      simp only [List.map_cons, List.foldr_cons]
      rcases List.mem_cons.mp hc with hceq | hc2
      · subst hceq
        exact List.mem_append.mpr (Or.inl (hblock c))
      · exact List.mem_append.mpr (Or.inr (ih c hc2))
  refine ⟨hmain, fun c hc => ?_⟩
  rw [hmain]
  exact hmem configs c hc

/-- Every effect the acquisition loop emits is a nil-user-data heartbeat or
a free-to-leased acquire: the loop itself never calls `ReleaseOne` and never
writes user data. -/
theorem fulfillLoop_effects (req : requirements) (ns : ResourceNeeds) (evs : List FEvent) :
    ∀ e ∈ (fulfillLoop req ns evs).1,
      (∃ n st, e = .updateOne n st none) ∨ ∃ t, e = .acquire t Free Leased := by
  induction req, ns, evs using fulfillLoop.induct with
  | case1 req evs =>
    intro e he
    rw [fulfillLoop] at he
    cases he
  | case2 req t c rest hc =>
    intro e he
    rw [fulfillLoop.eq_def] at he
    simp only [if_pos hc] at he
    cases he
  | case3 req t c rest hc tail =>
    intro e he
    rw [fulfillLoop.eq_def] at he
    simp only [if_pos hc] at he
    cases he
  | case4 req t c rest hc evs a tr out heq ih =>
    intro e he
    rw [fulfillLoop.eq_def] at he
    simp only [if_pos hc, heq] at he
    rcases List.mem_append.mp he with hl | hr
    · rcases List.mem_append.mp hl with hu | ha
      · simp only [updateResourcesEffects, List.mem_map] at hu
        rcases hu with ⟨r, _, hre⟩
        exact Or.inl ⟨r.name, r.state, hre.symm⟩
      · exact Or.inr ⟨t, List.mem_singleton.mp ha⟩
    · have := ih e
      rw [heq] at this
      exact this hr
  | case5 req t c rest hc evs res req' tr out heq ih =>
    intro e he
    have heq' : fulfillLoop
        { resource := req.resource, needs := req.needs,
          fulfillment := alAppend t res req.fulfillment } ((t, c - 1) :: rest) evs =
        (tr, out) := heq
    rw [fulfillLoop.eq_def] at he
    simp only [if_pos hc, heq'] at he
    rcases List.mem_append.mp he with hl | hr
    · rcases List.mem_append.mp hl with hu | ha
      · simp only [updateResourcesEffects, List.mem_map] at hu
        rcases hu with ⟨r, _, hre⟩
        exact Or.inl ⟨r.name, r.state, hre.symm⟩
      · exact Or.inr ⟨t, List.mem_singleton.mp ha⟩
    · have := ih e
      rw [heq] at this
      exact this hr
  | case6 req t c rest events hc ih =>
    intro e he
    rw [fulfillLoop.eq_def] at he
    simp only [if_neg hc] at he
    exact ih e he

/-- C5: if the acquisition loop observes cancellation, `fulfillOne` returns
the context error with the request as mutated so far, and the Fulfiller then
releases every secondary already acquired into the request's fulfillment
back to free, drops the request (nothing is pushed onto the fulfilled
queue), and performs no other release — in particular, as long as the
primary is not itself listed among the fulfillment secondaries, the primary
is never released by the Fulfiller. -/
theorem fulfillAll_cancel_unwind (env : MasonEnv) (req : requirements)
    (events : List FEvent) (tr : List Effect) (req' : requirements)
    (h : fulfillLoop req req.needs events = (tr, .cancelled req')) :
    fulfillOne env req events = (tr, .ret req' (some "context canceled")) ∧
    (fulfillAllStep env req events).2 = none ∧
    (fulfillAllStep env req events).1 =
      tr ++ (req'.fulfillment.flatMap (·.2)).map (fun r => Effect.releaseOne r.name Free) ∧
    (∀ r ∈ req'.fulfillment.flatMap (·.2),
      Effect.releaseOne r.name Free ∈ (fulfillAllStep env req events).1) ∧
    (∀ n s, Effect.releaseOne n s ∈ (fulfillAllStep env req events).1 →
      s = Free ∧ n ∈ (req'.fulfillment.flatMap (·.2)).map (·.name)) ∧
    (req'.resource.name ∉ (req'.fulfillment.flatMap (·.2)).map (·.name) →
      ∀ s, Effect.releaseOne req'.resource.name s ∉ (fulfillAllStep env req events).1) := by
  have hone : fulfillOne env req events = (tr, .ret req' (some "context canceled")) := by
    unfold fulfillOne
    rw [h]
  have hstep : fulfillAllStep env req events =
      (tr ++ (req'.fulfillment.flatMap (·.2)).map (fun r => Effect.releaseOne r.name Free),
        none) := by
    unfold fulfillAllStep
    rw [hone]
  have hchar : ∀ n s, Effect.releaseOne n s ∈ (fulfillAllStep env req events).1 →
      s = Free ∧ n ∈ (req'.fulfillment.flatMap (·.2)).map (·.name) := by
    intro n s hmem
    rw [hstep] at hmem
    rcases List.mem_append.mp hmem with hl | hr
    · have := fulfillLoop_effects req req.needs events (.releaseOne n s) (by rw [h]; exact hl)
      rcases this with ⟨n', st', heq⟩ | ⟨t, heq⟩ <;> cases heq
    · rcases List.mem_map.mp hr with ⟨r, hrmem, hre⟩
      injection hre.symm with h1 h2
      subst h1
      subst h2
      exact ⟨rfl, List.mem_map.mpr ⟨r, hrmem, rfl⟩⟩
  refine ⟨hone, by rw [hstep], by rw [hstep], ?_, hchar, ?_⟩
  · intro r hrmem
    rw [hstep]
    exact List.mem_append.mpr (Or.inr (List.mem_map.mpr ⟨r, hrmem, rfl⟩))
  · intro hnotin s hmem
    exact hnotin (hchar req'.resource.name s hmem).2

/-- C5 witness for `fulfillAll_cancel_unwind`: a pending request that
observes cancellation immediately is returned with the context error and
dropped without any broker call. -/
theorem fulfillAll_cancel_unwind_witness :
    fulfillOne fxRecycleEnv fxPendingReq [.cancel] =
      ([], .ret fxPendingReq (some "context canceled")) ∧
    (fulfillAllStep fxRecycleEnv fxPendingReq [.cancel]).2 = none := by
  have h := fulfillAll_cancel_unwind fxRecycleEnv fxPendingReq [.cancel] [] fxPendingReq
    (by show fulfillLoop fxPendingReq [("B", 1)] [.cancel] = ([], .cancelled fxPendingReq)
        rw [fulfillLoop]
        norm_num)
  exact ⟨h.1, h.2.1⟩

/-- C9: if the acquisition loop completes without cancellation but the
resulting request is not fulfilled, `fulfillOne` returns success (a nil
error) with no further effect: in particular it performs no `UpdateOne`
carrying user data, so the `leasedResources` persistence is silently
skipped rather than reported as an error. -/
theorem fulfillOne_unfulfilled_noop (env : MasonEnv) (req : requirements)
    (events : List FEvent) (tr : List Effect) (req' : requirements)
    (h : fulfillLoop req req.needs events = (tr, .finished req'))
    (hnf : req'.isFulFilled = false) :
    fulfillOne env req events = (tr, .ret req' none) ∧
    ∀ n st ud, Effect.updateOne n st (some ud) ∉ (fulfillOne env req events).1 := by
  have hone : fulfillOne env req events = (tr, .ret req' none) := by
    unfold fulfillOne
    rw [h]
    simp [hnf]
  refine ⟨hone, ?_⟩
  rw [hone]
  intro n st ud hmem
  have := fulfillLoop_effects req req.needs events (.updateOne n st (some ud))
    (by rw [h]; exact hmem)
  rcases this with ⟨n', st', heq⟩ | ⟨t, heq⟩ <;> simp at heq

/-- C9 witness for `fulfillOne_unfulfilled_noop`: a request needing one "B"
whose fulfillment already held one ends the loop with two, is not fulfilled,
and is returned with a nil error after only the heartbeat and the acquire —
no user-data-carrying `UpdateOne`. -/
theorem fulfillOne_unfulfilled_noop_witness :
    fulfillOne fxRecycleEnv fxStaleReq [.tick (.ok fxB2)] =
      ([.updateOne "a" Cleaning none, .updateOne "b1" Leased none, .acquire "B" Free Leased],
        .ret { resource := fxNilRes, needs := [("B", 1)],
               fulfillment := [("B", [fxB1, fxB2])] } none) := by
  have h := fulfillOne_unfulfilled_noop fxRecycleEnv fxStaleReq [.tick (.ok fxB2)]
    [.updateOne "a" Cleaning none, .updateOne "b1" Leased none, .acquire "B" Free Leased]
    { resource := fxNilRes, needs := [("B", 1)], fulfillment := [("B", [fxB1, fxB2])] }
    (by show fulfillLoop fxStaleReq [("B", 1)] [.tick (.ok fxB2)] = _
        rw [fulfillLoop]
        norm_num
        rw [fulfillLoop]
        norm_num
        rw [fulfillLoop]
        exact ⟨rfl, rfl⟩)
    (by decide)
  exact h.1

/-- A lookup succeeds exactly when the key occurs among the keys. -/
theorem alGet_isSome {α : Type} (k : String) (m : List (String × α)) :
    (alGet k m).isSome = true ↔ k ∈ m.map Prod.fst := by
  induction m with
  | nil => simp [alGet]
  | cons p rest ih =>
    rcases p with ⟨k', v⟩
    by_cases h : k' = k
    · subst h
      simp [alGet]
    · simp [alGet, h, ih, Ne.symm h]

/-- A lookup fails exactly when the key does not occur among the keys. -/
theorem alGet_eq_none {α : Type} (k : String) (m : List (String × α)) :
    alGet k m = none ↔ k ∉ m.map Prod.fst := by
  rw [← alGet_isSome k m, Option.not_isSome_iff_eq_none]

/-- A successful lookup returns an entry of the list. -/
theorem mem_of_alGet {α : Type} (k : String) (v : α) (m : List (String × α))
    (h : alGet k m = some v) : (k, v) ∈ m := by
  induction m with
  | nil => cases h
  | cons p rest ih =>
    rcases p with ⟨k', v'⟩
    by_cases hk : k' = k
    · subst hk
      simp [alGet] at h
      simp [h]
    · simp [alGet, hk] at h
      exact List.mem_cons_of_mem _ (ih h)

/-- With duplicate-free keys, every entry is returned by the lookup at its
key. -/
theorem alGet_of_mem_nodup {α : Type} (k : String) (v : α) (m : List (String × α))
    (hnd : (m.map Prod.fst).Nodup) (hmem : (k, v) ∈ m) : alGet k m = some v := by
  induction m with
  | nil => cases hmem
  | cons p rest ih =>
    rcases p with ⟨k', v'⟩
    rcases List.mem_cons.mp hmem with heq | hmem'
    · injection heq with h1 h2
      subst h1
      subst h2
      simp [alGet]
    · have hk : k' ≠ k := by
        intro hcontra
        subst hcontra
        have : k' ∈ rest.map Prod.fst :=
          List.mem_map.mpr ⟨(k', v), hmem', rfl⟩
        exact (List.nodup_cons.mp hnd).1 this
      simp only [alGet, if_neg hk]
      exact ih (List.nodup_cons.mp hnd).2 hmem'

/-- Adding at key `k` makes the value at `k` the old default-zero value plus
the addend. -/
theorem alGet_alAdd_self (k : String) (v : Int) (m : List (String × Int)) :
    alGet k (alAdd k v m) = some ((alGet k m).getD 0 + v) := by
  induction m with
  | nil => simp [alAdd, alGet]
  | cons p rest ih =>
    rcases p with ⟨k', v'⟩
    by_cases h : k' = k
    · subst h
      simp [alAdd, alGet]
    · simp [alAdd, alGet, h, ih]

/-- Adding at key `k` leaves lookups at other keys unchanged. -/
theorem alGet_alAdd_ne (k k' : String) (v : Int) (m : List (String × Int)) (h : k' ≠ k) :
    alGet k' (alAdd k v m) = alGet k' m := by
  induction m with
  | nil => simp [alAdd, alGet, Ne.symm h]
  | cons p rest ih =>
    rcases p with ⟨k0, v0⟩
    by_cases h0 : k0 = k
    · subst h0
      simp [alAdd, alGet, Ne.symm h]
    · simp [alAdd, alGet, h0, ih]

/-- Folding a needs list into an accumulator adds, at every key, the sum of
that key's entries. -/
theorem foldl_alAdd_getD (needs : ResourceNeeds) (acc : List (String × Int)) (k : String) :
    (alGet k (needs.foldl (fun a p => alAdd p.1 p.2 a) acc)).getD 0 =
      (alGet k acc).getD 0 + entrySum k needs := by
  induction needs generalizing acc with
  | nil => simp [entrySum]
  | cons p rest ih =>
    rcases p with ⟨k', v⟩
    simp only [List.foldl_cons]
    rw [ih]
    by_cases h : k' = k
    · subst h
      rw [alGet_alAdd_self]
      simp [entrySum]
      ring
    · rw [alGet_alAdd_ne k' k v acc (Ne.symm h)]
      simp [entrySum, h]

/-- Folding a needs list into an accumulator creates exactly the entry keys
of the needs list. -/
theorem foldl_alAdd_isSome (needs : ResourceNeeds) (acc : List (String × Int)) (k : String) :
    (alGet k (needs.foldl (fun a p => alAdd p.1 p.2 a) acc)).isSome = true ↔
      (alGet k acc).isSome = true ∨ k ∈ needs.map Prod.fst := by
  induction needs generalizing acc with
  | nil => simp
  | cons p rest ih =>
    rcases p with ⟨k', v⟩
    simp only [List.foldl_cons]
    rw [ih]
    by_cases h : k' = k
    · subst h
      simp [alGet_alAdd_self]
    · rw [alGet_alAdd_ne k' k v acc (Ne.symm h)]
      simp [h, Ne.symm h]

/-- The keys after an add: unchanged when the key was present, extended by
the key otherwise. -/
theorem alAdd_keys (k : String) (v : Int) (m : List (String × Int)) :
    (alAdd k v m).map Prod.fst =
      if k ∈ m.map Prod.fst then m.map Prod.fst else m.map Prod.fst ++ [k] := by
  induction m with
  | nil => simp [alAdd]
  | cons p rest ih =>
    rcases p with ⟨k', v'⟩
    by_cases h : k' = k
    · subst h
      simp [alAdd]
    · simp only [alAdd, if_neg h, List.map_cons, ih]
      by_cases hmem : k ∈ rest.map Prod.fst
      · simp [hmem, Ne.symm h]
      · simp [hmem, Ne.symm h]

/-- Adds preserve duplicate-freeness of the keys. -/
theorem alAdd_keys_nodup (k : String) (v : Int) (m : List (String × Int))
    (h : (m.map Prod.fst).Nodup) : ((alAdd k v m).map Prod.fst).Nodup := by
  rw [alAdd_keys]
  by_cases hmem : k ∈ m.map Prod.fst
  · simpa [hmem] using h
  · simp only [if_neg hmem]
    simp [List.nodup_append, h, hmem]

/-- Folding a needs list preserves duplicate-freeness of the keys. -/
theorem foldl_alAdd_keys_nodup (needs : ResourceNeeds) (acc : List (String × Int))
    (h : (acc.map Prod.fst).Nodup) :
    (((needs.foldl (fun a p => alAdd p.1 p.2 a) acc)).map Prod.fst).Nodup := by
  induction needs generalizing acc with
  | nil => exact h
  | cons p rest ih =>
    simp only [List.foldl_cons]
    exact ih _ (alAdd_keys_nodup p.1 p.2 acc h)

/-- The accumulated-needs side of the census tally: at every key, the
starting value plus one contribution per census resource from the config
registered under its type. -/
theorem tally_needs_getD (cn : List (String × ResourceNeeds)) (rs : List Resource)
    (na aa : List (String × Int)) (k : String) :
    (alGet k (tallyResources cn rs na aa).1).getD 0 =
      (alGet k na).getD 0 +
        (rs.map fun res => entrySum k ((alGet res.rtype cn).getD [])).sum := by
  induction rs generalizing na aa with
  | nil => simp [tallyResources]
  | cons res rest ih =>
    simp only [tallyResources]
    rcases hcfg : alGet res.rtype cn with _ | c
    · simp only [hcfg]
      rw [ih]
      simp [entrySum, hcfg]
    · simp only [hcfg]
      rw [ih, foldl_alAdd_getD]
      simp [hcfg]
      ring

/-- The accumulated-needs side of the census tally has an entry at `k`
exactly when some census resource's config references `k`. -/
theorem tally_needs_isSome (cn : List (String × ResourceNeeds)) (rs : List Resource)
    (na aa : List (String × Int)) (k : String) :
    (alGet k (tallyResources cn rs na aa).1).isSome = true ↔
      (alGet k na).isSome = true ∨
        ∃ res ∈ rs, k ∈ ((alGet res.rtype cn).getD []).map Prod.fst := by
  induction rs generalizing na aa with
  | nil => simp [tallyResources]
  | cons res rest ih =>
    simp only [tallyResources]
    rcases hcfg : alGet res.rtype cn with _ | c
    · simp only [hcfg]
      rw [ih]
      simp [hcfg]
    · simp only [hcfg]
      rw [ih, foldl_alAdd_isSome]
      simp [hcfg, or_assoc]

/-- The actual-count side of the census tally: at every key, the starting
value plus the number of census resources of that type. -/
theorem tally_actual_getD (cn : List (String × ResourceNeeds)) (rs : List Resource)
    (na aa : List (String × Int)) (k : String) :
    (alGet k (tallyResources cn rs na aa).2).getD 0 =
      (alGet k aa).getD 0 + censusCount rs k := by
  induction rs generalizing na aa with
  | nil => simp [tallyResources, censusCount]
  | cons res rest ih =>
    simp only [tallyResources]
    rw [ih]
    by_cases h : res.rtype = k
    · subst h
      rw [alGet_alAdd_self]
      simp [censusCount]
      ring
    · rw [alGet_alAdd_ne res.rtype k 1 aa (Ne.symm h)]
      simp [censusCount, h]

/-- The actual-count side of the census tally has an entry at `k` exactly
when some census resource has type `k`. -/
theorem tally_actual_isSome (cn : List (String × ResourceNeeds)) (rs : List Resource)
    (na aa : List (String × Int)) (k : String) :
    (alGet k (tallyResources cn rs na aa).2).isSome = true ↔
      (alGet k aa).isSome = true ∨ ∃ res ∈ rs, res.rtype = k := by
  induction rs generalizing na aa with
  | nil => simp [tallyResources]
  | cons res rest ih =>
    simp only [tallyResources]
    rw [ih]
    by_cases h : res.rtype = k
    · subst h
      simp [alGet_alAdd_self]
    · rw [alGet_alAdd_ne res.rtype k 1 aa (Ne.symm h)]
      simp [h, or_assoc]

/-- The census tally preserves duplicate-freeness of both accumulators'
keys. -/
theorem tally_keys_nodup (cn : List (String × ResourceNeeds)) (rs : List Resource)
    (na aa : List (String × Int))
    (hna : (na.map Prod.fst).Nodup) (haa : (aa.map Prod.fst).Nodup) :
    (((tallyResources cn rs na aa).1).map Prod.fst).Nodup ∧
      (((tallyResources cn rs na aa).2).map Prod.fst).Nodup := by
  induction rs generalizing na aa with
  | nil => exact ⟨hna, haa⟩
  | cons res rest ih =>
    simp only [tallyResources]
    rcases hcfg : alGet res.rtype cn with _ | c
    · simp only [hcfg]
      exact ih na (alAdd res.rtype 1 aa) hna (alAdd_keys_nodup res.rtype 1 aa haa)
    · simp only [hcfg]
      exact ih _ (alAdd res.rtype 1 aa)
        (foldl_alAdd_keys_nodup c na hna) (alAdd_keys_nodup res.rtype 1 aa haa)

/-- The final loop of `ValidateConfig` accepts exactly when every
accumulated entry is covered by the actual counts. -/
theorem checkNeeds_none_iff (actual needsList : List (String × Int)) :
    checkNeeds actual needsList = none ↔
      ∀ p ∈ needsList, ∃ a, alGet p.1 actual = some a ∧ p.2 ≤ a := by
  induction needsList with
  | nil => simp [checkNeeds]
  | cons p rest ih =>
    rcases p with ⟨t, v⟩
    simp only [checkNeeds]
    rcases ha : alGet t actual with _ | a
    · simp only [ha]
      refine iff_of_false (by simp) ?_
      intro hall
      rcases hall (t, v) (List.mem_cons_self _ _) with ⟨b, hb, _⟩
      simp only at hb
      rw [ha] at hb
      cases hb
    · simp only [ha]
      by_cases hv : a < v
      · rw [if_pos hv]
        refine iff_of_false (by simp) ?_
        intro hall
        rcases hall (t, v) (List.mem_cons_self _ _) with ⟨b, hb, hvb⟩
        simp only at hb hvb
        rw [ha] at hb
        injection hb with hb'
        omega
      · rw [if_neg hv, ih]
        constructor
        · intro hall p hp
          rcases List.mem_cons.mp hp with heq | hp2
          · subst heq
            exact ⟨a, ha, by omega⟩
          · exact hall p hp2
        · intro hall p hp
          exact hall p (List.mem_cons_of_mem _ hp)

/-- A successful first loop of `ValidateConfig` returns the name-to-needs
entries of the configs in order, appended to the accumulator. -/
theorem buildConfigNames_ok_result (configs : List ResourcesConfig)
    (acc : List (String × ResourceNeeds)) (m : List (String × ResourceNeeds))
    (h : buildConfigNames configs acc = .ok m) :
    m = acc ++ configs.map fun c => (c.name, c.needs) := by
  induction configs generalizing acc with
  | nil =>
    simp only [buildConfigNames] at h
    injection h with h'
    simp [h'.symm]
  | cons c rest ih =>
    simp only [buildConfigNames] at h
    rcases hg : alGet c.name acc with _ | v
    · rw [hg] at h
      rw [ih _ h]
      simp
    · rw [hg] at h
      cases h

/-- The first loop of `ValidateConfig` succeeds exactly when the config
names are duplicate-free and none of them is already in the accumulator. -/
theorem buildConfigNames_ok_iff (configs : List ResourcesConfig)
    (acc : List (String × ResourceNeeds)) :
    (∃ m, buildConfigNames configs acc = .ok m) ↔
      ((configs.map fun c => c.name).Nodup ∧
        ∀ c ∈ configs, c.name ∉ acc.map Prod.fst) := by
  induction configs generalizing acc with
  | nil => simp [buildConfigNames]
  | cons c rest ih =>
    simp only [buildConfigNames]
    rcases hg : alGet c.name acc with _ | v
    · simp only [hg]
      have hnotin : c.name ∉ acc.map Prod.fst := (alGet_eq_none c.name acc).mp hg
      rw [ih]
      constructor
      · rintro ⟨hnd, hall⟩
        have hkeys : ∀ c' ∈ rest, c'.name ∉ acc.map Prod.fst ∧ c'.name ≠ c.name := by
          intro c' hc'
          have h2 := hall c' hc'
          rw [List.map_append, List.mem_append] at h2
          push_neg at h2
          refine ⟨h2.1, ?_⟩
          intro heq
          exact h2.2 (by simp [heq])
        refine ⟨?_, ?_⟩
        · rw [List.map_cons, List.nodup_cons]
          refine ⟨?_, hnd⟩
          intro hmem
          rcases List.mem_map.mp hmem with ⟨c', hc', hname⟩
          exact (hkeys c' hc').2 hname
        · intro c' hc'
          rcases List.mem_cons.mp hc' with heq | hc2
          · subst heq
            exact hnotin
          · exact (hkeys c' hc2).1
      · rintro ⟨hnd, hall⟩
        rw [List.map_cons, List.nodup_cons] at hnd
        refine ⟨hnd.2, ?_⟩
        intro c' hc'
        rw [List.map_append, List.mem_append]
        push_neg
        refine ⟨hall c' (List.mem_cons_of_mem c hc'), ?_⟩
        intro hmem
        have hname : c'.name = c.name := by
          simpa using hmem
        exact hnd.1 (List.mem_map.mpr ⟨c', hc', hname⟩)
    · simp only [hg]
      have hin : c.name ∈ acc.map Prod.fst := by
        have := alGet_isSome c.name acc
        rw [hg] at this
        exact this.mp rfl
      constructor
      · rintro ⟨m, hm⟩
        cases hm
      · rintro ⟨hnd, hall⟩
        exact absurd hin (hall c (List.mem_cons_self c rest))

/-- Lookup in the name-to-needs map built from the configs takes the first
config of the given name, exactly as `find?` does. -/
theorem alGet_map_configs (configs : List ResourcesConfig) (t : String) :
    alGet t (configs.map fun c => (c.name, c.needs)) =
      (configs.find? fun c => c.name == t).map fun c => c.needs := by
  induction configs with
  | nil => rfl
  | cons c rest ih =>
    by_cases h : c.name = t
    · simp [alGet, List.find?_cons, h]
    · simp [alGet, List.find?_cons, h, ih]

/-- `configNeedsFor` agrees with the lookup in the built name-to-needs
map. -/
theorem configNeedsFor_eq (configs : List ResourcesConfig) (t : String) :
    configNeedsFor configs t =
      (alGet t (configs.map fun c => (c.name, c.needs))).getD [] := by
  rw [alGet_map_configs]
  unfold configNeedsFor
  rcases h : configs.find? (fun c => c.name == t) with _ | c <;> simp [h]

/-- With duplicate-free config names, a type is referenced in the spec's
sense exactly when it appears among the needs keys of the config governing
some census resource's type. -/
theorem isReferenced_iff (configs : List ResourcesConfig) (resources : List Resource)
    (k : String) (hnd : ((configs.map fun c => c.name)).Nodup) :
    isReferenced configs resources k ↔
      ∃ res ∈ resources, k ∈ (configNeedsFor configs res.rtype).map Prod.fst := by
  unfold isReferenced
  constructor
  · rintro ⟨res, hres, c, hc, hname, hk⟩
    refine ⟨res, hres, ?_⟩
    have hkeys : ((configs.map fun c => (c.name, c.needs)).map Prod.fst) =
        configs.map fun c => c.name := by
      simp [List.map_map]
    have hget : alGet res.rtype (configs.map fun c => (c.name, c.needs)) = some c.needs := by
      apply alGet_of_mem_nodup
      · rw [hkeys]
        exact hnd
      · rw [← hname]
        exact List.mem_map.mpr ⟨c, hc, rfl⟩
    rw [configNeedsFor_eq, hget]
    exact hk
  · rintro ⟨res, hres, hk⟩
    rw [configNeedsFor_eq] at hk
    rcases hget : alGet res.rtype (configs.map fun c => (c.name, c.needs)) with _ | needs
    · rw [hget] at hk
      cases hk
    · rw [hget] at hk
      have hmem := mem_of_alGet res.rtype needs _ hget
      rcases List.mem_map.mp hmem with ⟨c, hc, hpair⟩
      injection hpair with h1 h2
      refine ⟨res, hres, c, hc, h1, ?_⟩
      rw [h2]
      simpa using hk

/-- C8 counterexample: one config "A" needing two "B", census of two "A"s
and two "B"s.  Every part of the claim's stated failure condition is absent
— the config names are unique, the referenced type "B" appears in the
census, and the needs summed once per config whose primary type appears
(`specOncePerConfigNeeds` = 2) do not exceed the two census "B"s — so the
claim says `ValidateConfig` returns nil; but the code accumulates the
config's needs once per census resource of type "A" (4 > 2) and fails. -/
theorem ValidateConfig_per_config_sum_refuted :
    ValidateConfig [fxCfgA] fxCensus =
      some "not enough resource of type B for provisioning" ∧
    ([fxCfgA].map fun c => c.name).Nodup ∧
    (∃ res ∈ fxCensus, res.rtype = "B") ∧
    specOncePerConfigNeeds [fxCfgA] fxCensus "B" = 2 ∧
    censusCount fxCensus "B" = 2 ∧
    accumNeeds [fxCfgA] fxCensus "B" = 4 :=
  ⟨rfl, by decide, ⟨fxB1, by decide, rfl⟩, rfl, rfl, rfl⟩

/-- C8 (amended): `ValidateConfig(configs, census)` succeeds exactly when
the configuration names are unique and every resource type referenced by the
needs of a config whose primary type appears in the census is itself present
in the census with at least the accumulated needs — where a config's needs
are accumulated once PER CENSUS RESOURCE of its primary type
(`accumNeeds`), not once per config; equivalently it fails exactly on
duplicate config names, on a referenced type absent from the census, or on
a census short of that per-resource accumulation.  The embedding of
`ValidateConfig` is a pure function of its two arguments — it only returns
the verdict, so validation mutates nothing. -/
theorem ValidateConfig_iff (configs : List ResourcesConfig) (resources : List Resource) :
    ValidateConfig configs resources = none ↔
      ((configs.map fun c => c.name).Nodup ∧
        ∀ k, isReferenced configs resources k →
          (∃ res ∈ resources, res.rtype = k) ∧
            accumNeeds configs resources k ≤ censusCount resources k) := by
  unfold ValidateConfig
  rcases hb : buildConfigNames configs [] with e | m
  · simp only [hb]
    have hnd : ¬ ((configs.map fun c => c.name).Nodup) := by
      intro hnd
      rcases (buildConfigNames_ok_iff configs []).mpr ⟨hnd, by simp⟩ with ⟨m, hm⟩
      rw [hb] at hm
      cases hm
    exact iff_of_false (by simp) fun h => hnd h.1
  · simp only [hb]
    have hnd : (configs.map fun c => c.name).Nodup :=
      ((buildConfigNames_ok_iff configs []).mp ⟨m, hb⟩).1
    have hm : m = configs.map fun c => (c.name, c.needs) := by
      simpa using buildConfigNames_ok_result configs [] m hb
    subst hm
    rw [checkNeeds_none_iff]
    have hA : ∀ k,
        (alGet k (tallyResources (configs.map fun c => (c.name, c.needs))
          resources [] []).1).getD 0 = accumNeeds configs resources k := by
      intro k
      rw [tally_needs_getD]
      unfold accumNeeds
      have hcong : (resources.map fun res =>
          entrySum k ((alGet res.rtype (configs.map fun c => (c.name, c.needs))).getD [])) =
          resources.map fun res => entrySum k (configNeedsFor configs res.rtype) := by
        apply List.map_congr_left
        intro res _
        rw [configNeedsFor_eq]
      rw [hcong]
      simp [alGet]
    have hB : ∀ k,
        (alGet k (tallyResources (configs.map fun c => (c.name, c.needs))
          resources [] []).2).getD 0 = censusCount resources k := by
      intro k
      rw [tally_actual_getD]
      simp [alGet]
    have hC : ∀ k,
        (alGet k (tallyResources (configs.map fun c => (c.name, c.needs))
          resources [] []).1).isSome = true ↔ isReferenced configs resources k := by
      intro k
      rw [tally_needs_isSome, isReferenced_iff configs resources k hnd]
      simp only [alGet, Option.isSome_none, Bool.false_eq_true, false_or]
      constructor
      · rintro ⟨res, hres, hk⟩
        exact ⟨res, hres, by rw [configNeedsFor_eq]; exact hk⟩
      · rintro ⟨res, hres, hk⟩
        exact ⟨res, hres, by rw [← configNeedsFor_eq]; exact hk⟩
    have hD : ∀ k,
        (alGet k (tallyResources (configs.map fun c => (c.name, c.needs))
          resources [] []).2).isSome = true ↔ ∃ res ∈ resources, res.rtype = k := by
      intro k
      rw [tally_actual_isSome]
      simp [alGet]
    have hE : (((tallyResources (configs.map fun c => (c.name, c.needs))
        resources [] []).1).map Prod.fst).Nodup :=
      (tally_keys_nodup _ resources [] [] (by simp) (by simp)).1
    constructor
    · intro hall
      refine ⟨hnd, fun k href => ?_⟩
      obtain ⟨v, hv⟩ := Option.isSome_iff_exists.mp ((hC k).mpr href)
      obtain ⟨a, ha, hle⟩ := hall (k, v) (mem_of_alGet k v _ hv)
      have hpres : ∃ res ∈ resources, res.rtype = k :=
        (hD k).mp (Option.isSome_iff_exists.mpr ⟨a, by simpa using ha⟩)
      refine ⟨hpres, ?_⟩
      have h1 : accumNeeds configs resources k = v := by
        rw [← hA k, hv]
        rfl
      have h2 : censusCount resources k = a := by
        rw [← hB k]
        simp only at ha
        rw [ha]
        rfl
      rw [h1, h2]
      exact hle
    · intro hall p hp
      have hv : alGet p.1 (tallyResources (configs.map fun c => (c.name, c.needs))
          resources [] []).1 = some p.2 := by
        apply alGet_of_mem_nodup p.1 p.2 _ hE
        simpa using hp
      have href : isReferenced configs resources p.1 :=
        (hC p.1).mp (Option.isSome_iff_exists.mpr ⟨p.2, hv⟩)
      obtain ⟨hpres, hle⟩ := hall.2 p.1 href
      obtain ⟨a, ha⟩ := Option.isSome_iff_exists.mp ((hD p.1).mpr hpres)
      refine ⟨a, ha, ?_⟩
      have h1 : accumNeeds configs resources p.1 = p.2 := by
        rw [← hA p.1, hv]
        rfl
      have h2 : censusCount resources p.1 = a := by
        rw [← hB p.1, ha]
        rfl
      rw [← h1, ← h2]
      exact hle

end Mason
